import Mathlib

/-!
Verification of the core of `create_bodies_table.py` (yahoo-fantasy-hockey).

Shallow embedding conventions:
* Calendar dates are proleptic-Gregorian ordinals (`Int`), as in Python's
  `date.toordinal()`; ordinal 1 (0001-01-01) is a Monday, so
  `date.weekday() = (ordinal + 6) % 7`.
* Python dicts keyed by strings/pairs are association lists; insertion of a
  key that is checked absent is modelled by prepending (lookup-equivalent).
* Python sets of dates are lists of ordinals; only membership and value
  equality are ever used by the code under verification.
* The network (`requests.get` + JSON decode) is an oracle parameter
  `api : String → Int → List Int` giving, per `(team_tri, week_start)`, the
  parsed list of game dates.  The module-level `_nhl_schedule_cache` and the
  sequence of provider invocations are threaded explicitly as a `FetchState`;
  the `log` field records each real provider invocation, which the Python
  code performs exactly when the cache misses.
* The CP-SAT model of `solve_daily_assignment` (variables only for eligible
  (slot, player) pairs, at-most-one per slot, at-most-one per player,
  maximize the number of chosen pairs, solved to optimality) is realized by
  an executable exhaustive search `solveAux`; the constraints themselves are
  the predicate `Feasible`, and the theorems below prove the search returns
  a feasible assignment of maximum cardinality.
-/

/-- `Player` dataclass: name, Yahoo team code, eligible positions. -/
structure Player where
  name : String
  team : String
  pos : List String
deriving DecidableEq, Repr

/-- Python `date.weekday()` on an ordinal: Monday = 0. -/
def pyWeekday (d : Int) : Int :=
  (d + 6) % 7

/-- `week_start_monday(today) = today - timedelta(days=today.weekday())`. -/
def week_start_monday (d : Int) : Int :=
  d - pyWeekday d

/-- Association-list lookup (models Python `dict` access / `in`). -/
def alistLookup {α β : Type} [DecidableEq α] : List (α × β) → α → Option β
  | [], _ => none
  | (k, v) :: rest, key => if k = key then some v else alistLookup rest key

/-- `YAHOO_TO_NHL_TRI` exception table. -/
def YAHOO_TO_NHL_TRI : List (String × String) :=
  [("NJ", "njd"), ("LA", "lak"), ("SJ", "sjs"), ("TB", "tbl"), ("VGK", "vgk")]

/-- `yahoo_team_to_nhl_tri`: strip + upper, table lookup, else lowercase. -/
def yahoo_team_to_nhl_tri (team : String) : String :=
  let t := team.trim.toUpper
  (alistLookup YAHOO_TO_NHL_TRI t).getD t.toLower

/-- The module-level `_nhl_schedule_cache` plus an instrumentation log of the
actual schedule-provider invocations (one entry per cache-missing fetch). -/
structure FetchState where
  cache : List ((String × Int) × List Int)
  log : List (String × Int)
deriving Repr

/-- Fresh process state: empty cache, no provider invocations yet. -/
def emptyFetchState : FetchState :=
  ⟨[], []⟩

/-- `fetch_team_week_games`: return the cached date set when present,
otherwise invoke the provider once and cache the result. -/
def fetch_team_week_games (api : String → Int → List Int) (st : FetchState)
    (tri : String) (ws : Int) : List Int × FetchState :=
  match alistLookup st.cache (tri, ws) with
  | some v => (v, st)
  | none =>
    let v := api tri ws
    (v, ⟨((tri, ws), v) :: st.cache, st.log ++ [(tri, ws)]⟩)

/-- The `team_to_dates` loop of `build_player_game_matrix`: fetch once per
distinct team tri-code. -/
def buildTeamToDates (api : String → Int → List Int) (ws : Int) :
    List Player → List (String × List Int) → FetchState →
    List (String × List Int) × FetchState
  | [], acc, st => (acc, st)
  | p :: rest, acc, st =>
    match alistLookup acc (yahoo_team_to_nhl_tri p.team) with
    | some _ => buildTeamToDates api ws rest acc st
    | none =>
      let r := fetch_team_week_games api st (yahoo_team_to_nhl_tri p.team) ws
      buildTeamToDates api ws rest ((yahoo_team_to_nhl_tri p.team, r.1) :: acc) r.2

/-- `build_player_game_matrix`: map each player name to their team's week
date set, fetching once per distinct team. -/
def build_player_game_matrix (api : String → Int → List Int)
    (players : List Player) (ws : Int) (st : FetchState) :
    List (String × List Int) × FetchState :=
  let r := buildTeamToDates api ws players [] st
  (players.map (fun p =>
    (p.name, (alistLookup r.1 (yahoo_team_to_nhl_tri p.team)).getD [])), r.2)

/-- The player loop of `build_single_date_game_matrix`: per-team boolean
cache `team_games`, fetching the week of `target` on a miss. -/
def buildSingleAux (api : String → Int → List Int) (target : Int) :
    List Player → List (String × Bool) → FetchState →
    List (String × Bool) × FetchState
  | [], _, st => ([], st)
  | p :: rest, tg, st =>
    match alistLookup tg (yahoo_team_to_nhl_tri p.team) with
    | some b =>
      let r := buildSingleAux api target rest tg st
      ((p.name, b) :: r.1, r.2)
    | none =>
      let fr := fetch_team_week_games api st (yahoo_team_to_nhl_tri p.team)
        (week_start_monday target)
      let b := decide (target ∈ fr.1)
      let r := buildSingleAux api target rest
        ((yahoo_team_to_nhl_tri p.team, b) :: tg) fr.2
      ((p.name, b) :: r.1, r.2)

/-- `build_single_date_game_matrix`: map each player name to whether their
team plays on `target`. -/
def build_single_date_game_matrix (api : String → Int → List Int)
    (players : List Player) (target : Int) (st : FetchState) :
    List (String × Bool) × FetchState :=
  buildSingleAux api target players [] st

/-- A sequence of `build_player_game_matrix` calls sharing the process-level
schedule cache (models repeated calls within one run). -/
def runBuilds (api : String → Int → List Int) :
    List (List Player × Int) → FetchState → FetchState
  | [], st => st
  | (ps, ws) :: rest, st =>
    runBuilds api rest (build_player_game_matrix api ps ws st).2

/-- One element of the JSON `games` list: the optional `"gameDate"` string
field (a missing or non-string value both behave as absent, since the code
guards with `isinstance(gd, str)`). -/
structure JGame where
  gameDate : Option String
deriving Repr

/-- A JSON value found under a top-level key of the schedule payload: either
a list of game records or anything else. -/
inductive JVal where
  | jlist (games : List JGame)
  | jother
deriving Repr

/-- Python `calendar.isleap`-equivalent used by `date.fromisoformat`. -/
def isLeapYear (y : Nat) : Bool :=
  y % 4 == 0 && (y % 100 != 0 || y % 400 == 0)

/-- Days in month `m` of year `y` (Gregorian). -/
def daysInMonth (y m : Nat) : Nat :=
  if m = 2 then (if isLeapYear y then 29 else 28)
  else if m = 4 ∨ m = 6 ∨ m = 9 ∨ m = 11 then 30
  else 31

/-- Days in year `y` strictly before month `m`. -/
def daysBeforeMonth (y m : Nat) : Nat :=
  (List.range (m - 1)).foldl (fun acc i => acc + daysInMonth y (i + 1)) 0

/-- `date(y, m, d).toordinal()` as an integer. -/
def toOrdinal (y m d : Nat) : Int :=
  ((365 * (y - 1) + (y - 1) / 4 + (y - 1) / 400 - (y - 1) / 100 : Nat) : Int)
    + (daysBeforeMonth y m : Int) + (d : Int)

/-- Digit character to its numeric value. -/
def digitVal (c : Char) : Nat :=
  c.toNat - 48

/-- `date.fromisoformat` on a 10-character `YYYY-MM-DD` candidate: `none`
models the `ValueError` branch that the caller swallows with `continue`. -/
def parseIsoDate (s : String) : Option Int :=
  match s.toList with
  | [y1, y2, y3, y4, h1, m1, m2, h2, d1, d2] =>
    if (h1 == '-') && (h2 == '-')
        && [y1, y2, y3, y4, m1, m2, d1, d2].all Char.isDigit then
      let y := ((digitVal y1 * 10 + digitVal y2) * 10 + digitVal y3) * 10 + digitVal y4
      let m := digitVal m1 * 10 + digitVal m2
      let d := digitVal d1 * 10 + digitVal d2
      if 1 ≤ y && y ≤ 9999 && 1 ≤ m && m ≤ 12 && 1 ≤ d && d ≤ daysInMonth y m then
        some (toOrdinal y m d)
      else none
    else none
  | _ => none

/-- The defensive key probe of `fetch_team_week_games`: the first of
`"games"`, `"gameWeek"`, `"weekGames"` that is present with a list value;
otherwise the games list silently defaults to empty. -/
def pickGames (data : List (String × JVal)) : List JGame :=
  match alistLookup data "games" with
  | some (JVal.jlist gs) => gs
  | _ =>
    match alistLookup data "gameWeek" with
    | some (JVal.jlist gs) => gs
    | _ =>
      match alistLookup data "weekGames" with
      | some (JVal.jlist gs) => gs
      | _ => []

/-- The payload-to-date-set parsing stage of `fetch_team_week_games`
(lines 137-157): probe keys, then collect parsable `gameDate[:10]` values,
skipping records whose date is absent, short, or unparsable. -/
def extract_game_dates (data : List (String × JVal)) : List Int :=
  (pickGames data).filterMap (fun g =>
    match g.gameDate with
    | some gd => if 10 ≤ gd.length then parseIsoDate (String.mk (gd.toList.take 10)) else none
    | none => none)

/-- `fetch_team_week_games` composed with the raw-payload provider: the
parsed result is what gets cached and returned. -/
def fetch_team_week_games_raw (raw : String → Int → List (String × JVal))
    (st : FetchState) (tri : String) (ws : Int) : List Int × FetchState :=
  fetch_team_week_games (fun t w => extract_game_dates (raw t w)) st tri ws

/-- Option-valued list indexing (Python `list[i]` with an in-range check). -/
def nth {α : Type} : List α → Nat → Option α
  | [], _ => none
  | a :: _, 0 => some a
  | _ :: l, n + 1 => nth l n

/-- An `x[(s, p)]` variable exists in the CP-SAT model iff slot `s` and
player `p` are in range and `slots[s] in players[p].pos`. -/
def eligibleB (players : List Player) (slots : List String) (s p : Nat) : Bool :=
  match nth slots s, nth players p with
  | some lbl, some pl => decide (lbl ∈ pl.pos)
  | _, _ => false

/-- Player indices eligible for label `lbl` and not yet used. -/
def eligPlayers (players : List Player) (lbl : String) (used : List Nat) : List Nat :=
  (List.range players.length).filter (fun p =>
    match nth players p with
    | some pl => decide (lbl ∈ pl.pos ∧ p ∉ used)
    | none => false)

/-- Keep whichever of two assignments fills more slots. -/
def chooseBetter (a b : List (Nat × Nat)) : List (Nat × Nat) :=
  if a.length < b.length then b else a

/-- Exhaustive optimal search realizing CP-SAT's `Maximize(sum(x.values()))`
over the remaining slots: at slot index `s`, either leave the slot empty or
assign any unused eligible player, keeping a largest result. -/
def solveAux (players : List Player) : List String → Nat → List Nat → List (Nat × Nat)
  | [], _, _ => []
  | lbl :: rest, s, used =>
    ((eligPlayers players lbl used).map
        (fun p => (s, p) :: solveAux players rest (s + 1) (p :: used))).foldl
      chooseBetter (solveAux players rest (s + 1) used)

/-- `solve_daily_assignment`: slot-index to player-index mapping of maximum
cardinality (the CP-SAT model solved to optimality). -/
def solve_daily_assignment (active_players : List Player) (slots : List String) :
    List (Nat × Nat) :=
  solveAux active_players slots 0 []

/-- The constraints of the CP-SAT model (lines 226-241): keys used at most
once, values used at most once, and every chosen pair has a variable, i.e.
is label-eligible. -/
def Feasible (players : List Player) (slots : List String)
    (a : List (Nat × Nat)) : Prop :=
  (a.map Prod.fst).Nodup ∧ (a.map Prod.snd).Nodup ∧
    ∀ sp ∈ a, eligibleB players slots sp.1 sp.2 = true

instance feasibleDecidable (players : List Player) (slots : List String)
    (a : List (Nat × Nat)) : Decidable (Feasible players slots a) :=
  inferInstanceAs (Decidable ((a.map Prod.fst).Nodup ∧ (a.map Prod.snd).Nodup ∧
    ∀ sp ∈ a, eligibleB players slots sp.1 sp.2 = true))

/-- Occurrence count of a label in a list of labels. -/
def countLbl (l : List String) (lbl : String) : Nat :=
  l.countP (fun x => decide (x = lbl))

/-- All eligible-position occurrences across the roster, in player order
(the iteration source of `eligible_by_pos`). -/
def allPositions : List Player → List String
  | [] => []
  | p :: rest => p.pos ++ allPositions rest

/-- `calculate_idle_players`: per label appearing in some player's
positions, the surplus `max(0, eligible_count - slot_count)`, included only
when positive. -/
def calculate_idle_players (players : List Player) (slots : List String) :
    List (String × Nat) :=
  (allPositions players).dedup.filterMap (fun lbl =>
    let idle := countLbl (allPositions players) lbl - countLbl slots lbl
    if 0 < idle then some (lbl, idle) else none)

/-! ### List indexing and eligibility lemmas -/

theorem nth_some_lt {α : Type} :
    ∀ (l : List α) (n : Nat) (a : α), nth l n = some a → n < l.length := by
  intro l
  induction l with
  | nil => intro n a h; simp [nth] at h
  | cons x l ih =>
    intro n a h
    cases n with
    | zero => simp
    | succ n =>
      simp only [nth] at h
      have := ih n a h
      simpa using Nat.succ_lt_succ this

theorem nth_append_left {α : Type} (l₂ : List α) :
    ∀ (l₁ : List α) (n : Nat), n < l₁.length → nth (l₁ ++ l₂) n = nth l₁ n := by
  intro l₁
  induction l₁ with
  | nil => intro n h; simp at h
  | cons x l ih =>
    intro n h
    cases n with
    | zero => rfl
    | succ n =>
      simp only [List.cons_append, nth]
      exact ih n (by simpa using Nat.lt_of_succ_lt_succ h)

theorem nth_append_length {α : Type} (y : α) (l₂ : List α) :
    ∀ (l₁ : List α), nth (l₁ ++ y :: l₂) l₁.length = some y := by
  intro l₁
  induction l₁ with
  | nil => rfl
  | cons x l ih => simpa [nth] using ih

theorem eligibleB_iff {players : List Player} {slots : List String} {s p : Nat} :
    eligibleB players slots s p = true ↔
      ∃ lbl pl, nth slots s = some lbl ∧ nth players p = some pl ∧ lbl ∈ pl.pos := by
  unfold eligibleB
  cases h1 : nth slots s <;> cases h2 : nth players p <;> simp [h1, h2]

theorem mem_eligPlayers {players : List Player} {lbl : String} {used : List Nat} {p : Nat} :
    p ∈ eligPlayers players lbl used ↔
      ∃ pl, nth players p = some pl ∧ lbl ∈ pl.pos ∧ p ∉ used := by
  unfold eligPlayers
  simp only [List.mem_filter, List.mem_range]
  constructor
  · rintro ⟨hlt, hfilt⟩
    cases h : nth players p with
    | none => rw [h] at hfilt; simp at hfilt
    | some pl =>
      rw [h] at hfilt
      exact ⟨pl, rfl, by simpa using hfilt⟩
  · rintro ⟨pl, hp, hmem, hnu⟩
    refine ⟨nth_some_lt _ _ _ hp, ?_⟩
    rw [hp]
    simp [hmem, hnu]

/-! ### `chooseBetter` and its fold -/

theorem le_length_chooseBetter_left (a b : List (Nat × Nat)) :
    a.length ≤ (chooseBetter a b).length := by
  unfold chooseBetter; split <;> omega

theorem le_length_chooseBetter_right (a b : List (Nat × Nat)) :
    b.length ≤ (chooseBetter a b).length := by
  unfold chooseBetter; split <;> omega

theorem chooseBetter_eq_or (a b : List (Nat × Nat)) :
    chooseBetter a b = a ∨ chooseBetter a b = b := by
  unfold chooseBetter; split
  · right; rfl
  · left; rfl

theorem le_length_foldl_chooseBetter_init (l : List (List (Nat × Nat))) :
    ∀ init, init.length ≤ (l.foldl chooseBetter init).length := by
  induction l with
  | nil => intro init; simp
  | cons o l ih =>
    intro init
    rw [List.foldl_cons]
    exact le_trans (le_length_chooseBetter_left init o) (ih (chooseBetter init o))

theorem le_length_foldl_chooseBetter_mem (l : List (List (Nat × Nat))) :
    ∀ init, ∀ o ∈ l, o.length ≤ (l.foldl chooseBetter init).length := by
  induction l with
  | nil => intro init o ho; simp at ho
  | cons a l ih =>
    intro init o ho
    rw [List.foldl_cons]
    rcases List.mem_cons.mp ho with h | h
    · subst h
      exact le_trans (le_length_chooseBetter_right init o)
        (le_length_foldl_chooseBetter_init l _)
    · exact ih _ o h

theorem foldl_chooseBetter_cases (l : List (List (Nat × Nat))) :
    ∀ init, l.foldl chooseBetter init = init ∨ l.foldl chooseBetter init ∈ l := by
  induction l with
  | nil => intro init; left; simp
  | cons a l ih =>
    intro init
    rw [List.foldl_cons]
    rcases ih (chooseBetter init a) with h | h
    · rcases chooseBetter_eq_or init a with h2 | h2
      · left; rw [h, h2]
      · right; rw [h, h2]; exact List.mem_cons_self a l
    · right; exact List.mem_cons_of_mem a h

theorem solveAux_cons (players : List Player) (lbl : String) (rest : List String)
    (s : Nat) (used : List Nat) :
    solveAux players (lbl :: rest) s used =
      ((eligPlayers players lbl used).map
          (fun p => (s, p) :: solveAux players rest (s + 1) (p :: used))).foldl
        chooseBetter (solveAux players rest (s + 1) used) := by
  rw [solveAux]

/-! ### Feasibility of the solver output -/

theorem solveAux_spec (players : List Player) (rest : List String) :
    ∀ (pre : List String) (used : List Nat),
      ((solveAux players rest pre.length used).map Prod.fst).Nodup ∧
      (∀ k ∈ (solveAux players rest pre.length used).map Prod.fst, pre.length ≤ k) ∧
      ((solveAux players rest pre.length used).map Prod.snd).Nodup ∧
      (∀ v ∈ (solveAux players rest pre.length used).map Prod.snd, v ∉ used) ∧
      (∀ sp ∈ solveAux players rest pre.length used,
        eligibleB players (pre ++ rest) sp.1 sp.2 = true) := by
  induction rest with
  | nil =>
    intro pre used
    simp [solveAux]
  | cons lbl rest ih =>
    intro pre used
    rw [solveAux_cons]
    rcases foldl_chooseBetter_cases
        ((eligPlayers players lbl used).map
          (fun p => (pre.length, p) :: solveAux players rest (pre.length + 1) (p :: used)))
        (solveAux players rest (pre.length + 1) used) with hres | hres
    · rw [hres]
      have H := ih (pre ++ [lbl]) used
      simp only [List.length_append, List.length_singleton, List.append_assoc,
        List.singleton_append] at H
      obtain ⟨h1, h2, h3, h4, h5⟩ := H
      exact ⟨h1, fun k hk => le_trans (Nat.le_succ _) (h2 k hk), h3, h4, h5⟩
    · rcases List.mem_map.mp hres with ⟨p, hp, heq⟩
      simp only [← heq]
      rcases mem_eligPlayers.mp hp with ⟨pl, hpl, hlbl, hnu⟩
      have H := ih (pre ++ [lbl]) (p :: used)
      simp only [List.length_append, List.length_singleton, List.append_assoc,
        List.singleton_append] at H
      obtain ⟨h1, h2, h3, h4, h5⟩ := H
      refine ⟨?_, ?_, ?_, ?_, ?_⟩
      · simp only [List.map_cons]
        refine List.nodup_cons.mpr ⟨?_, h1⟩
        intro hmem
        have := h2 _ hmem
        omega
      · intro k hk
        simp only [List.map_cons, List.mem_cons] at hk
        rcases hk with rfl | hk
        · exact le_refl _
        · exact le_trans (Nat.le_succ _) (h2 k hk)
      · simp only [List.map_cons]
        refine List.nodup_cons.mpr ⟨?_, h3⟩
        intro hmem
        exact (h4 _ hmem) (List.mem_cons_self p used)
      · intro v hv
        simp only [List.map_cons, List.mem_cons] at hv
        rcases hv with rfl | hv
        · exact hnu
        · exact fun hc => (h4 v hv) (List.mem_cons_of_mem _ hc)
      · intro sp hsp
        rcases List.mem_cons.mp hsp with rfl | hsp
        · rw [eligibleB_iff]
          exact ⟨lbl, pl, nth_append_length lbl rest pre, hpl, hlbl⟩
        · exact h5 sp hsp

theorem solve_returns_feasible (players : List Player) (slots : List String) :
    Feasible players slots (solve_daily_assignment players slots) := by
  have H := solveAux_spec players slots [] []
  simp only [List.length_nil, List.nil_append] at H
  obtain ⟨h1, _, h3, _, h5⟩ := H
  exact ⟨h1, h3, h5⟩

/-! ### Maximality of the solver output -/

theorem solveAux_max (players : List Player) (rest : List String) :
    ∀ (pre : List String) (used : List Nat) (a : List (Nat × Nat)),
      (a.map Prod.fst).Nodup → (a.map Prod.snd).Nodup →
      (∀ sp ∈ a, eligibleB players (pre ++ rest) sp.1 sp.2 = true) →
      (∀ sp ∈ a, pre.length ≤ sp.1) →
      (∀ sp ∈ a, sp.2 ∉ used) →
      a.length ≤ (solveAux players rest pre.length used).length := by
  induction rest with
  | nil =>
    intro pre used a hk hv helig hge hnu
    cases a with
    | nil => simp
    | cons sp a' =>
      exfalso
      have h1 := helig sp (List.mem_cons_self sp a')
      have h2 := hge sp (List.mem_cons_self sp a')
      rw [List.append_nil] at h1
      rcases eligibleB_iff.mp h1 with ⟨lbl, pl, hs, _, _⟩
      have := nth_some_lt _ _ _ hs
      omega
  | cons lbl rest ih =>
    intro pre used a hk hv helig hge hnu
    rw [solveAux_cons]
    by_cases hex : ∃ p, (pre.length, p) ∈ a
    · obtain ⟨p, hpa⟩ := hex
      obtain ⟨a', hperm⟩ : ∃ b, a.Perm ((pre.length, p) :: b) :=
        ⟨_, List.perm_cons_erase hpa⟩
      have hkperm : (a.map Prod.fst).Perm (pre.length :: a'.map Prod.fst) := by
        simpa using hperm.map Prod.fst
      have hvperm : (a.map Prod.snd).Perm (p :: a'.map Prod.snd) := by
        simpa using hperm.map Prod.snd
      obtain ⟨hknot, hk3⟩ := List.nodup_cons.mp ((hkperm.nodup_iff).mp hk)
      obtain ⟨hvnot, hv3⟩ := List.nodup_cons.mp ((hvperm.nodup_iff).mp hv)
      have hsub : ∀ sp ∈ a', sp ∈ a := by
        intro sp hsp
        exact hperm.mem_iff.mpr (List.mem_cons_of_mem _ hsp)
      have helig' : ∀ sp ∈ a', eligibleB players ((pre ++ [lbl]) ++ rest) sp.1 sp.2 = true := by
        intro sp hsp
        simpa only [List.append_assoc, List.singleton_append] using helig sp (hsub sp hsp)
      have hge' : ∀ sp ∈ a', (pre ++ [lbl]).length ≤ sp.1 := by
        intro sp hsp
        have h1 := hge sp (hsub sp hsp)
        have hne : sp.1 ≠ pre.length := by
          intro hc
          exact hknot (hc ▸ List.mem_map_of_mem Prod.fst hsp)
        simp only [List.length_append, List.length_singleton]
        omega
      have hnu' : ∀ sp ∈ a', sp.2 ∉ p :: used := by
        intro sp hsp hc
        rcases List.mem_cons.mp hc with h | h
        · exact hvnot (h ▸ List.mem_map_of_mem Prod.snd hsp)
        · exact hnu sp (hsub sp hsp) h
      have hIH : a'.length ≤ (solveAux players rest (pre.length + 1) (p :: used)).length := by
        have := ih (pre ++ [lbl]) (p :: used) a' hk3 hv3 helig' hge' hnu'
        simpa using this
      have hlen : a.length = a'.length + 1 := by
        simpa using hperm.length_eq
      have hpe : p ∈ eligPlayers players lbl used := by
        rw [mem_eligPlayers]
        have he : eligibleB players (pre ++ lbl :: rest) pre.length p = true :=
          helig (pre.length, p) hpa
        rcases eligibleB_iff.mp he with ⟨lbl', pl, hs, hp2, hmem⟩
        rw [nth_append_length] at hs
        have hl : lbl' = lbl := by injection hs with h; exact h.symm
        have hpnu : p ∉ used := hnu (pre.length, p) hpa
        exact ⟨pl, hp2, hl ▸ hmem, hpnu⟩
      have hopt : ((pre.length, p) :: solveAux players rest (pre.length + 1) (p :: used)) ∈
          (eligPlayers players lbl used).map
            (fun q => (pre.length, q) :: solveAux players rest (pre.length + 1) (q :: used)) :=
        List.mem_map_of_mem _ hpe
      have hb := le_length_foldl_chooseBetter_mem _
        (solveAux players rest (pre.length + 1) used) _ hopt
      calc a.length = a'.length + 1 := hlen
        _ ≤ (solveAux players rest (pre.length + 1) (p :: used)).length + 1 := by omega
        _ = ((pre.length, p) :: solveAux players rest (pre.length + 1) (p :: used)).length := by
            simp
        _ ≤ _ := hb
    · push_neg at hex
      have hge' : ∀ sp ∈ a, pre.length + 1 ≤ sp.1 := by
        intro sp hsp
        have h1 := hge sp hsp
        rcases Nat.lt_or_ge pre.length sp.1 with h | h
        · omega
        · exfalso
          have he : sp.1 = pre.length := le_antisymm h h1
          exact hex sp.2 (by rw [← he]; exact hsp)
      have helig' : ∀ sp ∈ a, eligibleB players ((pre ++ [lbl]) ++ rest) sp.1 sp.2 = true := by
        intro sp hsp
        simpa only [List.append_assoc, List.singleton_append] using helig sp hsp
      have hIH : a.length ≤ (solveAux players rest (pre.length + 1) used).length := by
        have := ih (pre ++ [lbl]) used a hk hv helig'
          (by simp only [List.length_append, List.length_singleton]; exact hge') hnu
        simpa using this
      exact le_trans hIH (le_length_foldl_chooseBetter_init _ _)

theorem solve_is_max (players : List Player) (slots : List String)
    (a : List (Nat × Nat)) (h : Feasible players slots a) :
    a.length ≤ (solve_daily_assignment players slots).length := by
  obtain ⟨h1, h2, h3⟩ := h
  have := solveAux_max players slots [] [] a h1 h2 (by simpa using h3)
    (fun sp _ => Nat.zero_le _) (by simp)
  simpa using this

/-! ### Supporting lemmas for monotonicity and empty inputs -/

theorem eligibleB_append (players : List Player) (q : Player) (slots : List String)
    (s p : Nat) (h : eligibleB players slots s p = true) :
    eligibleB (players ++ [q]) slots s p = true := by
  rcases eligibleB_iff.mp h with ⟨lbl, pl, hs, hp, hmem⟩
  rw [eligibleB_iff]
  refine ⟨lbl, pl, hs, ?_, hmem⟩
  rw [nth_append_left _ _ _ (nth_some_lt _ _ _ hp)]
  exact hp

theorem solveAux_nil_players : ∀ (rest : List String) (s : Nat) (used : List Nat),
    solveAux [] rest s used = [] := by
  intro rest
  induction rest with
  | nil => intro s used; simp [solveAux]
  | cons lbl rest ih =>
    intro s used
    rw [solveAux_cons]
    have he : eligPlayers [] lbl used = [] := by simp [eligPlayers]
    rw [he]
    simp [ih]

/-! ### Claim theorems for the daily assignment solver -/

/-- C1: for every list of active players and every list of slot labels, the
assignment returned by `solve_daily_assignment` is maximum-cardinality: no
feasible injective label-respecting assignment has strictly more matched
pairs (equivalently, every such assignment has at most as many). -/
theorem solve_daily_assignment_maximal (active_players : List Player)
    (slots : List String) (a : List (Nat × Nat))
    (h : Feasible active_players slots a) :
    a.length ≤ (solve_daily_assignment active_players slots).length :=
  solve_is_max active_players slots a h

/-- Witness for C1: the spec's scenario slots `["C","C","LW","D"]`, players
`[A(C), B(C,LW), Cc(D)]`, and the concrete feasible assignment
`{0↦A, 1↦B, 3↦Cc}` of cardinality 3. -/
theorem solve_daily_assignment_maximal_witness :
    Feasible [⟨"A", "BOS", ["C"]⟩, ⟨"B", "BOS", ["C", "LW"]⟩, ⟨"Cc", "BOS", ["D"]⟩]
        ["C", "C", "LW", "D"] [(0, 0), (1, 1), (3, 2)] ∧
      ([(0, 0), (1, 1), (3, 2)] : List (Nat × Nat)).length ≤
        (solve_daily_assignment
          [⟨"A", "BOS", ["C"]⟩, ⟨"B", "BOS", ["C", "LW"]⟩, ⟨"Cc", "BOS", ["D"]⟩]
          ["C", "C", "LW", "D"]).length :=
  ⟨by decide, solve_daily_assignment_maximal _ _ _ (by decide)⟩

/-- C2: every mapping returned by `solve_daily_assignment` satisfies the
Assignment invariant: slot keys pairwise distinct, player values pairwise
distinct, and every chosen pair label-eligible. -/
theorem solve_daily_assignment_invariant (active_players : List Player)
    (slots : List String) :
    Feasible active_players slots (solve_daily_assignment active_players slots) :=
  solve_returns_feasible active_players slots

/-- C6: an empty slot list, and likewise an empty active-player list, yields
the empty assignment (the function is total, so no error is possible). -/
theorem solve_daily_assignment_empty_inputs (active_players : List Player)
    (slots : List String) :
    solve_daily_assignment active_players [] = [] ∧
      solve_daily_assignment [] slots = [] := by
  constructor
  · simp [solve_daily_assignment, solveAux]
  · simp only [solve_daily_assignment]
    exact solveAux_nil_players slots 0 []

/-- C7: appending one player with a nonempty eligible-position set never
decreases the cardinality of the returned assignment. -/
theorem solve_daily_assignment_monotone (active_players : List Player)
    (slots : List String) (q : Player) (hq : q.pos ≠ []) :
    (solve_daily_assignment active_players slots).length ≤
      (solve_daily_assignment (active_players ++ [q]) slots).length := by
  obtain ⟨h1, h2, h3⟩ := solve_returns_feasible active_players slots
  exact solve_is_max (active_players ++ [q]) slots _
    ⟨h1, h2, fun sp hsp => eligibleB_append active_players q slots sp.1 sp.2 (h3 sp hsp)⟩

/-- Witness for C7: one C-eligible player, slots `["C","LW"]`, appending an
LW-eligible player. -/
theorem solve_daily_assignment_monotone_witness :
    (Player.mk "B" "NYR" ["LW"]).pos ≠ [] ∧
      (solve_daily_assignment [⟨"A", "BOS", ["C"]⟩] ["C", "LW"]).length ≤
        (solve_daily_assignment ([⟨"A", "BOS", ["C"]⟩] ++ [⟨"B", "NYR", ["LW"]⟩])
          ["C", "LW"]).length :=
  ⟨by decide, solve_daily_assignment_monotone _ _ _ (by decide)⟩

/-- C8: the objective value is determined by the input: every feasible
assignment of maximum cardinality (any value an optimal solve could return)
has exactly the cardinality of the returned assignment, so repeated
invocations agree on the number of matched pairs. -/
theorem solve_daily_assignment_card_stable (active_players : List Player)
    (slots : List String) (a : List (Nat × Nat))
    (hfeas : Feasible active_players slots a)
    (hmax : ∀ b, Feasible active_players slots b → b.length ≤ a.length) :
    a.length = (solve_daily_assignment active_players slots).length :=
  le_antisymm (solve_is_max active_players slots a hfeas)
    (hmax _ (solve_returns_feasible active_players slots))

/-- Witness for C8: a one-goalie instance where the returned assignment
itself plays the role of the other optimal solution. -/
theorem solve_daily_assignment_card_stable_witness :
    Feasible [⟨"A", "BOS", ["G"]⟩] ["G"]
        (solve_daily_assignment [⟨"A", "BOS", ["G"]⟩] ["G"]) ∧
      (solve_daily_assignment [⟨"A", "BOS", ["G"]⟩] ["G"]).length =
        (solve_daily_assignment [⟨"A", "BOS", ["G"]⟩] ["G"]).length :=
  ⟨by decide, solve_daily_assignment_card_stable _ _ _ (by decide)
    (fun b hb => solve_is_max [⟨"A", "BOS", ["G"]⟩] ["G"] b hb)⟩

/-! ### Claim theorems for dates and error handling -/

/-- C10: `week_start_monday` returns a Monday, lands within the six days
before its argument, and is idempotent (hence a fixed point on Mondays). -/
theorem week_start_monday_props (d : Int) :
    pyWeekday (week_start_monday d) = 0 ∧
      week_start_monday d ≤ d ∧ d ≤ week_start_monday d + 6 ∧
      week_start_monday (week_start_monday d) = week_start_monday d := by
  unfold week_start_monday pyWeekday
  refine ⟨?_, ?_, ?_, ?_⟩ <;> omega

/-- C5 evidence: on a payload whose shape is unrecognized (no `"games"`,
`"gameWeek"` or `"weekGames"` key holding a list), `fetch_team_week_games`
returns the empty date set — and caches it — instead of surfacing an error,
contradicting the specified contract. -/
theorem fetch_unrecognized_shape_silently_empty :
    (fetch_team_week_games_raw (fun _ _ => [("schedule", JVal.jother)])
        emptyFetchState "bos" 739169).1 = [] ∧
      alistLookup (fetch_team_week_games_raw (fun _ _ => [("schedule", JVal.jother)])
          emptyFetchState "bos" 739169).2.cache ("bos", 739169) = some [] := by
  constructor <;> rfl

/-! ### Cache behaviour of the schedule fetcher -/

/-- The date set a fetch for `(tri, ws)` yields when the cache starts as
`c0`: the cached value if present, otherwise the provider's answer. -/
def fetchedDates (api : String → Int → List Int)
    (c0 : List ((String × Int) × List Int)) (tri : String) (ws : Int) : List Int :=
  (alistLookup c0 (tri, ws)).getD (api tri ws)

theorem fetch_fst (api : String → Int → List Int) (st : FetchState)
    (tri : String) (ws : Int) :
    (fetch_team_week_games api st tri ws).1 = fetchedDates api st.cache tri ws := by
  unfold fetch_team_week_games fetchedDates
  cases h : alistLookup st.cache (tri, ws) <;> simp [h]

theorem fetch_cache (api : String → Int → List Int) (st : FetchState)
    (tri : String) (ws : Int) (k : String × Int) :
    alistLookup (fetch_team_week_games api st tri ws).2.cache k =
      if k = (tri, ws) then some ((fetch_team_week_games api st tri ws).1)
      else alistLookup st.cache k := by
  unfold fetch_team_week_games
  cases h : alistLookup st.cache (tri, ws) with
  | some v =>
    by_cases hk : k = (tri, ws)
    · subst hk; simp [h]
    · simp [hk]
  | none =>
    by_cases hk : k = (tri, ws)
    · subst hk; simp [alistLookup]
    · simp only [alistLookup]
      rw [if_neg (fun hh => hk hh.symm), if_neg hk]

/-- Invariant tying the invocation log to the cache: no provider call is
ever repeated, and every logged key is cached. -/
def LogInCache (st : FetchState) : Prop :=
  st.log.Nodup ∧ ∀ k ∈ st.log, (alistLookup st.cache k).isSome

theorem fetch_log_inv (api : String → Int → List Int) (st : FetchState)
    (tri : String) (ws : Int) (h : LogInCache st) :
    LogInCache (fetch_team_week_games api st tri ws).2 := by
  obtain ⟨h1, h2⟩ := h
  unfold fetch_team_week_games
  cases hc : alistLookup st.cache (tri, ws) with
  | some v => exact ⟨h1, h2⟩
  | none =>
    constructor
    · rw [List.nodup_append]
      refine ⟨h1, List.nodup_singleton _, ?_⟩
      intro k hk hk2
      simp only [List.mem_singleton] at hk2
      subst hk2
      have := h2 _ hk
      rw [hc] at this
      simp at this
    · intro k hk
      rw [List.mem_append] at hk
      by_cases hke : k = (tri, ws)
      · subst hke; simp [alistLookup]
      · simp only [alistLookup]
        rw [if_neg (fun hh => hke hh.symm)]
        rcases hk with hk | hk
        · exact h2 k hk
        · simp only [List.mem_singleton] at hk
          exact absurd hk hke

/-! ### The team-to-dates loop -/

theorem buildTeamToDates_spec (api : String → Int → List Int) (ws : Int)
    (c0 : List ((String × Int) × List Int)) :
    ∀ (ps : List Player) (acc : List (String × List Int)) (st : FetchState),
      (∀ tri v, alistLookup acc tri = some v → v = fetchedDates api c0 tri ws) →
      (∀ tri, alistLookup acc tri = none →
        alistLookup st.cache (tri, ws) = alistLookup c0 (tri, ws)) →
      (∀ tri v, alistLookup (buildTeamToDates api ws ps acc st).1 tri = some v →
          v = fetchedDates api c0 tri ws) ∧
        (∀ p ∈ ps, (alistLookup (buildTeamToDates api ws ps acc st).1
          (yahoo_team_to_nhl_tri p.team)).isSome) ∧
        (∀ tri, (alistLookup acc tri).isSome →
          (alistLookup (buildTeamToDates api ws ps acc st).1 tri).isSome) := by
  intro ps
  induction ps with
  | nil =>
    intro acc st hacc hcache
    refine ⟨?_, ?_, ?_⟩
    · intro tri v h
      exact hacc tri v (by simpa [buildTeamToDates] using h)
    · intro p hp; simp at hp
    · intro tri h; simpa [buildTeamToDates] using h
  | cons p rest ih =>
    intro acc st hacc hcache
    cases hl : alistLookup acc (yahoo_team_to_nhl_tri p.team) with
    | some v =>
      have heq : buildTeamToDates api ws (p :: rest) acc st =
          buildTeamToDates api ws rest acc st := by
        simp [buildTeamToDates, hl]
      rw [heq]
      have H := ih acc st hacc hcache
      refine ⟨H.1, ?_, H.2.2⟩
      intro q hq
      rcases List.mem_cons.mp hq with rfl | hq
      · exact H.2.2 _ (by simp [hl])
      · exact H.2.1 q hq
    | none =>
      obtain ⟨v0, st1, hfr⟩ :
          ∃ v0 st1, fetch_team_week_games api st (yahoo_team_to_nhl_tri p.team) ws =
            (v0, st1) := ⟨_, _, rfl⟩
      have heq : buildTeamToDates api ws (p :: rest) acc st =
          buildTeamToDates api ws rest ((yahoo_team_to_nhl_tri p.team, v0) :: acc) st1 := by
        simp [buildTeamToDates, hl, hfr]
      rw [heq]
      have hval : v0 = fetchedDates api c0 (yahoo_team_to_nhl_tri p.team) ws := by
        have hf := fetch_fst api st (yahoo_team_to_nhl_tri p.team) ws
        rw [hfr] at hf
        simp only at hf
        rw [hf]
        unfold fetchedDates
        rw [hcache _ hl]
      have hacc' : ∀ tri v,
          alistLookup ((yahoo_team_to_nhl_tri p.team, v0) :: acc) tri = some v →
          v = fetchedDates api c0 tri ws := by
        intro tri v h
        simp only [alistLookup] at h
        by_cases ht : yahoo_team_to_nhl_tri p.team = tri
        · rw [if_pos ht] at h
          injection h with h
          subst ht
          rw [← h]
          exact hval
        · rw [if_neg ht] at h
          exact hacc tri v h
      have hcache' : ∀ tri,
          alistLookup ((yahoo_team_to_nhl_tri p.team, v0) :: acc) tri = none →
          alistLookup st1.cache (tri, ws) = alistLookup c0 (tri, ws) := by
        intro tri h
        simp only [alistLookup] at h
        by_cases ht : yahoo_team_to_nhl_tri p.team = tri
        · rw [if_pos ht] at h; exact absurd h (by simp)
        · rw [if_neg ht] at h
          have hfc := fetch_cache api st (yahoo_team_to_nhl_tri p.team) ws (tri, ws)
          rw [hfr] at hfc
          simp only at hfc
          rw [hfc, if_neg (by intro hc; exact ht (congrArg Prod.fst hc).symm)]
          exact hcache tri h
      have H := ih ((yahoo_team_to_nhl_tri p.team, v0) :: acc) st1 hacc' hcache'
      refine ⟨H.1, ?_, ?_⟩
      · intro q hq
        rcases List.mem_cons.mp hq with rfl | hq
        · exact H.2.2 _ (by simp [alistLookup])
        · exact H.2.1 q hq
      · intro tri h
        apply H.2.2
        simp only [alistLookup]
        by_cases ht : yahoo_team_to_nhl_tri p.team = tri
        · rw [if_pos ht]; simp
        · rw [if_neg ht]; exact h

theorem buildTeamToDates_loginv (api : String → Int → List Int) (ws : Int) :
    ∀ (ps : List Player) (acc : List (String × List Int)) (st : FetchState),
      LogInCache st → LogInCache (buildTeamToDates api ws ps acc st).2 := by
  intro ps
  induction ps with
  | nil => intro acc st h; simpa [buildTeamToDates] using h
  | cons p rest ih =>
    intro acc st h
    cases hl : alistLookup acc (yahoo_team_to_nhl_tri p.team) with
    | some v =>
      have heq : buildTeamToDates api ws (p :: rest) acc st =
          buildTeamToDates api ws rest acc st := by
        simp [buildTeamToDates, hl]
      rw [heq]
      exact ih acc st h
    | none =>
      obtain ⟨v0, st1, hfr⟩ :
          ∃ v0 st1, fetch_team_week_games api st (yahoo_team_to_nhl_tri p.team) ws =
            (v0, st1) := ⟨_, _, rfl⟩
      have heq : buildTeamToDates api ws (p :: rest) acc st =
          buildTeamToDates api ws rest ((yahoo_team_to_nhl_tri p.team, v0) :: acc) st1 := by
        simp [buildTeamToDates, hl, hfr]
      rw [heq]
      apply ih
      have := fetch_log_inv api st (yahoo_team_to_nhl_tri p.team) ws h
      rw [hfr] at this
      exact this

/-! ### Lookups in name-keyed result maps -/

theorem alistLookup_map_isSome {α : Type} (f : Player → α) :
    ∀ (players : List Player) (n : String),
      (alistLookup (players.map (fun p => (p.name, f p))) n).isSome ↔
        n ∈ players.map Player.name := by
  intro players
  induction players with
  | nil => intro n; simp [alistLookup]
  | cons p rest ih =>
    intro n
    simp only [List.map_cons, alistLookup]
    by_cases h : p.name = n
    · simp [h]
    · rw [if_neg h, ih]
      simp only [List.mem_cons]
      constructor
      · exact Or.inr
      · rintro (h2 | h2)
        · exact absurd h2.symm h
        · exact h2

theorem alistLookup_map_mem {α : Type} (f : Player → α) :
    ∀ (players : List Player), (players.map Player.name).Nodup →
      ∀ p ∈ players,
        alistLookup (players.map (fun q => (q.name, f q))) p.name = some (f p) := by
  intro players
  induction players with
  | nil => intro _ p hp; simp at hp
  | cons q rest ih =>
    intro hnodup p hp
    simp only [List.map_cons] at hnodup
    obtain ⟨hq, hrest⟩ := List.nodup_cons.mp hnodup
    simp only [List.map_cons, alistLookup]
    rcases List.mem_cons.mp hp with rfl | hp'
    · rw [if_pos rfl]
    · by_cases h : q.name = p.name
      · exact absurd (h ▸ List.mem_map_of_mem Player.name hp') hq
      · rw [if_neg h]
        exact ih hrest p hp'

theorem alistLookup_map_map {α β : Type} (g : α → β) (f : Player → α) :
    ∀ (ps : List Player) (n : String),
      alistLookup (ps.map (fun p => (p.name, g (f p)))) n =
        (alistLookup (ps.map (fun p => (p.name, f p))) n).map g := by
  intro ps
  induction ps with
  | nil => intro n; simp [alistLookup]
  | cons p rest ih =>
    intro n
    simp only [List.map_cons, alistLookup]
    by_cases h : p.name = n
    · simp [h]
    · rw [if_neg h, if_neg h, ih]

/-! ### Claim theorem for the availability matrix builder -/

/-- C3: `build_player_game_matrix` returns a map whose domain is exactly the
players' names; each player (names assumed unique, per the data model) maps
to the date set fetched for their team — the cached value for
`(team, week_start)` if present, otherwise the provider's answer, which is
then cached; players sharing a team tri-code get identical sets; and across
any sequence of calls starting from a fresh process state the provider is
invoked at most once per distinct `(team, week_start)` pair. -/
theorem build_player_game_matrix_spec (api : String → Int → List Int)
    (players : List Player) (ws : Int) (st0 : FetchState)
    (hnames : (players.map Player.name).Nodup) :
    (∀ n, (alistLookup (build_player_game_matrix api players ws st0).1 n).isSome ↔
        n ∈ players.map Player.name) ∧
      (∀ p ∈ players,
        alistLookup (build_player_game_matrix api players ws st0).1 p.name =
          some (fetchedDates api st0.cache (yahoo_team_to_nhl_tri p.team) ws)) ∧
      (∀ p q, p ∈ players → q ∈ players →
        yahoo_team_to_nhl_tri p.team = yahoo_team_to_nhl_tri q.team →
        alistLookup (build_player_game_matrix api players ws st0).1 p.name =
          alistLookup (build_player_game_matrix api players ws st0).1 q.name) ∧
      (∀ reqs : List (List Player × Int),
        ((runBuilds api reqs emptyFetchState).log).Nodup) := by
  have HB := buildTeamToDates_spec api ws st0.cache players [] st0
    (by intro tri v h; simp [alistLookup] at h) (fun tri _ => rfl)
  have hres : (build_player_game_matrix api players ws st0).1 =
      players.map (fun p => (p.name,
        (alistLookup (buildTeamToDates api ws players [] st0).1
          (yahoo_team_to_nhl_tri p.team)).getD [])) := rfl
  have hvalp : ∀ p ∈ players,
      (alistLookup (buildTeamToDates api ws players [] st0).1
        (yahoo_team_to_nhl_tri p.team)).getD [] =
        fetchedDates api st0.cache (yahoo_team_to_nhl_tri p.team) ws := by
    intro p hp
    have hsome := HB.2.1 p hp
    cases hh : alistLookup (buildTeamToDates api ws players [] st0).1
        (yahoo_team_to_nhl_tri p.team) with
    | none => rw [hh] at hsome; simp at hsome
    | some v =>
      simp only [Option.getD_some]
      exact HB.1 _ v hh
  have hmem : ∀ p ∈ players,
      alistLookup (build_player_game_matrix api players ws st0).1 p.name =
        some (fetchedDates api st0.cache (yahoo_team_to_nhl_tri p.team) ws) := by
    intro p hp
    rw [hres, alistLookup_map_mem _ players hnames p hp, hvalp p hp]
  refine ⟨?_, hmem, ?_, ?_⟩
  · intro n
    rw [hres]
    exact alistLookup_map_isSome _ players n
  · intro p q hp hq hteam
    rw [hmem p hp, hmem q hq, hteam]
  · intro reqs
    have hrun : ∀ (rs : List (List Player × Int)) (st : FetchState),
        LogInCache st → LogInCache (runBuilds api rs st) := by
      intro rs
      induction rs with
      | nil => intro st h; simpa [runBuilds] using h
      | cons r rest ih =>
        intro st h
        obtain ⟨ps2, ws2⟩ := r
        simp only [runBuilds]
        exact ih _ (buildTeamToDates_loginv api ws2 ps2 [] st h)
    exact (hrun reqs emptyFetchState
      ⟨List.nodup_nil, by intro k hk; simp [emptyFetchState] at hk⟩).1

/-- Witness for C3: two same-team players and one other-team player, fresh
cache, a constant provider. -/
theorem build_player_game_matrix_spec_witness :
    (([⟨"A", "BOS", ["C"]⟩, ⟨"B", "BOS", ["LW"]⟩, ⟨"Cc", "NJ", ["D"]⟩] :
        List Player).map Player.name).Nodup ∧
      ((∀ n, (alistLookup (build_player_game_matrix (fun _ _ => [10])
            [⟨"A", "BOS", ["C"]⟩, ⟨"B", "BOS", ["LW"]⟩, ⟨"Cc", "NJ", ["D"]⟩] 7
            emptyFetchState).1 n).isSome ↔
          n ∈ ([⟨"A", "BOS", ["C"]⟩, ⟨"B", "BOS", ["LW"]⟩, ⟨"Cc", "NJ", ["D"]⟩] :
            List Player).map Player.name) ∧
        (∀ p ∈ ([⟨"A", "BOS", ["C"]⟩, ⟨"B", "BOS", ["LW"]⟩, ⟨"Cc", "NJ", ["D"]⟩] :
            List Player),
          alistLookup (build_player_game_matrix (fun _ _ => [10])
            [⟨"A", "BOS", ["C"]⟩, ⟨"B", "BOS", ["LW"]⟩, ⟨"Cc", "NJ", ["D"]⟩] 7
            emptyFetchState).1 p.name =
            some (fetchedDates (fun _ _ => [10]) emptyFetchState.cache
              (yahoo_team_to_nhl_tri p.team) 7)) ∧
        (∀ p q, p ∈ ([⟨"A", "BOS", ["C"]⟩, ⟨"B", "BOS", ["LW"]⟩, ⟨"Cc", "NJ", ["D"]⟩] :
            List Player) →
          q ∈ ([⟨"A", "BOS", ["C"]⟩, ⟨"B", "BOS", ["LW"]⟩, ⟨"Cc", "NJ", ["D"]⟩] :
            List Player) →
          yahoo_team_to_nhl_tri p.team = yahoo_team_to_nhl_tri q.team →
          alistLookup (build_player_game_matrix (fun _ _ => [10])
            [⟨"A", "BOS", ["C"]⟩, ⟨"B", "BOS", ["LW"]⟩, ⟨"Cc", "NJ", ["D"]⟩] 7
            emptyFetchState).1 p.name =
            alistLookup (build_player_game_matrix (fun _ _ => [10])
              [⟨"A", "BOS", ["C"]⟩, ⟨"B", "BOS", ["LW"]⟩, ⟨"Cc", "NJ", ["D"]⟩] 7
              emptyFetchState).1 q.name) ∧
        (∀ reqs : List (List Player × Int),
          ((runBuilds (fun _ _ => [10]) reqs emptyFetchState).log).Nodup)) :=
  ⟨by decide, build_player_game_matrix_spec (fun _ _ => [10])
    [⟨"A", "BOS", ["C"]⟩, ⟨"B", "BOS", ["LW"]⟩, ⟨"Cc", "NJ", ["D"]⟩] 7
    emptyFetchState (by decide)⟩

/-! ### The single-date variant -/

theorem buildSingleAux_spec (api : String → Int → List Int) (target : Int)
    (c0 : List ((String × Int) × List Int)) :
    ∀ (ps : List Player) (tg : List (String × Bool)) (st : FetchState),
      (∀ tri b, alistLookup tg tri = some b →
        b = decide (target ∈ fetchedDates api c0 tri (week_start_monday target))) →
      (∀ tri, alistLookup tg tri = none →
        alistLookup st.cache (tri, week_start_monday target) =
          alistLookup c0 (tri, week_start_monday target)) →
      (buildSingleAux api target ps tg st).1 =
        ps.map (fun p => (p.name,
          decide (target ∈ fetchedDates api c0 (yahoo_team_to_nhl_tri p.team)
            (week_start_monday target)))) := by
  intro ps
  induction ps with
  | nil => intro tg st htg hcache; simp [buildSingleAux]
  | cons p rest ih =>
    intro tg st htg hcache
    cases hl : alistLookup tg (yahoo_team_to_nhl_tri p.team) with
    | some b =>
      have heq : (buildSingleAux api target (p :: rest) tg st).1 =
          (p.name, b) :: (buildSingleAux api target rest tg st).1 := by
        simp [buildSingleAux, hl]
      rw [heq, List.map_cons, ih tg st htg hcache, htg _ b hl]
    | none =>
      obtain ⟨v0, st1, hfr⟩ :
          ∃ v0 st1, fetch_team_week_games api st (yahoo_team_to_nhl_tri p.team)
            (week_start_monday target) = (v0, st1) := ⟨_, _, rfl⟩
      have heq : (buildSingleAux api target (p :: rest) tg st).1 =
          (p.name, decide (target ∈ v0)) ::
            (buildSingleAux api target rest
              ((yahoo_team_to_nhl_tri p.team, decide (target ∈ v0)) :: tg) st1).1 := by
        simp [buildSingleAux, hl, hfr]
      have hval : v0 = fetchedDates api c0 (yahoo_team_to_nhl_tri p.team)
          (week_start_monday target) := by
        have hf := fetch_fst api st (yahoo_team_to_nhl_tri p.team) (week_start_monday target)
        rw [hfr] at hf
        simp only at hf
        rw [hf]
        unfold fetchedDates
        rw [hcache _ hl]
      have htg' : ∀ tri b,
          alistLookup ((yahoo_team_to_nhl_tri p.team, decide (target ∈ v0)) :: tg) tri =
            some b →
          b = decide (target ∈ fetchedDates api c0 tri (week_start_monday target)) := by
        intro tri b h
        simp only [alistLookup] at h
        by_cases ht : yahoo_team_to_nhl_tri p.team = tri
        · rw [if_pos ht] at h
          injection h with h
          subst ht
          rw [← h, hval]
        · rw [if_neg ht] at h
          exact htg tri b h
      have hcache' : ∀ tri,
          alistLookup ((yahoo_team_to_nhl_tri p.team, decide (target ∈ v0)) :: tg) tri =
            none →
          alistLookup st1.cache (tri, week_start_monday target) =
            alistLookup c0 (tri, week_start_monday target) := by
        intro tri h
        simp only [alistLookup] at h
        by_cases ht : yahoo_team_to_nhl_tri p.team = tri
        · rw [if_pos ht] at h; exact absurd h (by simp)
        · rw [if_neg ht] at h
          have hfc := fetch_cache api st (yahoo_team_to_nhl_tri p.team)
            (week_start_monday target) (tri, week_start_monday target)
          rw [hfr] at hfc
          simp only at hfc
          rw [hfc, if_neg (by intro hc; exact ht (congrArg Prod.fst hc).symm)]
          exact hcache tri h
      rw [heq, List.map_cons, ih _ st1 htg' hcache', hval]

/-- C4: the single-date variant equals the week-matrix reduction: for every
name, `build_single_date_game_matrix players d` holds `true` exactly when
`d` lies in the date set that `build_player_game_matrix players
(week_start_monday d)` assigns to that name, both run from the same cache
state. -/
theorem build_single_date_refines_week_matrix (api : String → Int → List Int)
    (players : List Player) (target : Int) (st0 : FetchState) (n : String) :
    alistLookup (build_single_date_game_matrix api players target st0).1 n =
      (alistLookup (build_player_game_matrix api players
          (week_start_monday target) st0).1 n).map
        (fun dates => decide (target ∈ dates)) := by
  have HB := buildTeamToDates_spec api (week_start_monday target) st0.cache players [] st0
    (by intro tri v h; simp [alistLookup] at h) (fun tri _ => rfl)
  have hweek : (build_player_game_matrix api players (week_start_monday target) st0).1 =
      players.map (fun p => (p.name,
        fetchedDates api st0.cache (yahoo_team_to_nhl_tri p.team)
          (week_start_monday target))) := by
    show players.map (fun p => (p.name,
        (alistLookup (buildTeamToDates api (week_start_monday target) players [] st0).1
          (yahoo_team_to_nhl_tri p.team)).getD [])) = _
    apply List.map_congr_left
    intro p hp
    have hsome := HB.2.1 p hp
    cases hh : alistLookup (buildTeamToDates api (week_start_monday target) players [] st0).1
        (yahoo_team_to_nhl_tri p.team) with
    | none => rw [hh] at hsome; simp at hsome
    | some v =>
      simp only [Option.getD_some]
      rw [HB.1 _ v hh]
  have hsingle : (build_single_date_game_matrix api players target st0).1 =
      players.map (fun p => (p.name,
        decide (target ∈ fetchedDates api st0.cache (yahoo_team_to_nhl_tri p.team)
          (week_start_monday target)))) := by
    exact buildSingleAux_spec api target st0.cache players [] st0
      (by intro tri b h; simp [alistLookup] at h) (fun tri _ => rfl)
  rw [hsingle, hweek]
  exact alistLookup_map_map (fun dates => decide (target ∈ dates))
    (fun p => fetchedDates api st0.cache (yahoo_team_to_nhl_tri p.team)
      (week_start_monday target)) players n

/-! ### Idle-player counting -/

theorem countLbl_append (l1 l2 : List String) (lbl : String) :
    countLbl (l1 ++ l2) lbl = countLbl l1 lbl + countLbl l2 lbl := by
  simp [countLbl, List.countP_append]

theorem countLbl_nodup (lbl : String) :
    ∀ (l : List String), l.Nodup → countLbl l lbl = if lbl ∈ l then 1 else 0 := by
  intro l
  induction l with
  | nil => intro _; simp [countLbl]
  | cons x l ih =>
    intro h
    obtain ⟨hx, hl⟩ := List.nodup_cons.mp h
    have hrec := ih hl
    unfold countLbl at hrec ⊢
    rw [List.countP_cons, hrec]
    by_cases he : x = lbl
    · subst he
      simp [hx]
    · by_cases hm : lbl ∈ l
      · have hmc : lbl ∈ x :: l := List.mem_cons_of_mem _ hm
        simp [hm, hmc, he]
      · have hmc : lbl ∉ x :: l := by
          rw [List.mem_cons]
          rintro (h1 | h1)
          · exact he h1.symm
          · exact hm h1
        simp [hm, hmc, he]

theorem countLbl_allPositions (lbl : String) :
    ∀ (players : List Player), (∀ p ∈ players, p.pos.Nodup) →
      countLbl (allPositions players) lbl =
        players.countP (fun p => decide (lbl ∈ p.pos)) := by
  intro players
  induction players with
  | nil => intro _; simp [allPositions, countLbl]
  | cons p rest ih =>
    intro h
    have hp := h p (List.mem_cons_self p rest)
    have hrest := fun q hq => h q (List.mem_cons_of_mem _ hq)
    show countLbl (p.pos ++ allPositions rest) lbl = _
    rw [countLbl_append, countLbl_nodup lbl p.pos hp, ih hrest, List.countP_cons]
    by_cases hm : lbl ∈ p.pos <;> simp [hm] <;> omega

theorem alistLookup_idle (slots all : List String) :
    ∀ (keys : List String), keys.Nodup → ∀ lbl,
      alistLookup (keys.filterMap (fun k =>
        let idle := countLbl all k - countLbl slots k
        if 0 < idle then some (k, idle) else none)) lbl =
      if lbl ∈ keys ∧ 0 < countLbl all lbl - countLbl slots lbl
      then some (countLbl all lbl - countLbl slots lbl) else none := by
  intro keys
  induction keys with
  | nil => intro _ lbl; simp [alistLookup]
  | cons k keys ih =>
    intro h lbl
    obtain ⟨hk, hkeys⟩ := List.nodup_cons.mp h
    by_cases hik : 0 < countLbl all k - countLbl slots k
    · rw [List.filterMap_cons_some
        (show _ = some (k, countLbl all k - countLbl slots k) by simp [hik])]
      simp only [alistLookup]
      by_cases he : k = lbl
      · rw [if_pos he]
        subst he
        rw [if_pos ⟨List.mem_cons_self k keys, hik⟩]
      · rw [if_neg he, ih hkeys lbl]
        by_cases hm : lbl ∈ keys ∧ 0 < countLbl all lbl - countLbl slots lbl
        · rw [if_pos hm, if_pos ⟨List.mem_cons_of_mem _ hm.1, hm.2⟩]
        · rw [if_neg hm, if_neg ?_]
          intro hc
          rcases List.mem_cons.mp hc.1 with h1 | h1
          · exact he h1.symm
          · exact hm ⟨h1, hc.2⟩
    · rw [List.filterMap_cons_none (show _ = none by simp [hik])]
      rw [ih hkeys lbl]
      by_cases hm : lbl ∈ keys ∧ 0 < countLbl all lbl - countLbl slots lbl
      · rw [if_pos hm, if_pos ⟨List.mem_cons_of_mem _ hm.1, hm.2⟩]
      · rw [if_neg hm, if_neg ?_]
        intro hc
        rcases List.mem_cons.mp hc.1 with h1 | h1
        · exact hik (h1 ▸ hc.2)
        · exact hm ⟨h1, hc.2⟩

/-- C9: for every label, the idle count reported by
`calculate_idle_players` (reading an absent label as 0) is the surplus
`max(0, eligible_player_count_for_label − slot_count_for_label)`, computed
with truncated natural subtraction; eligible players are counted via set
membership, which matches the code's occurrence count because each player's
eligible-position set is duplicate-free. -/
theorem calculate_idle_players_surplus (players : List Player) (slots : List String)
    (hpos : ∀ p ∈ players, p.pos.Nodup) (lbl : String) :
    (alistLookup (calculate_idle_players players slots) lbl).getD 0 =
      players.countP (fun p => decide (lbl ∈ p.pos)) - countLbl slots lbl := by
  unfold calculate_idle_players
  rw [alistLookup_idle slots (allPositions players) (allPositions players).dedup
    (List.nodup_dedup _) lbl]
  by_cases hm : lbl ∈ (allPositions players).dedup ∧
      0 < countLbl (allPositions players) lbl - countLbl slots lbl
  · rw [if_pos hm]
    simp only [Option.getD_some]
    rw [countLbl_allPositions lbl players hpos]
  · rw [if_neg hm]
    simp only [Option.getD_none]
    rw [← countLbl_allPositions lbl players hpos]
    by_cases hmem : lbl ∈ (allPositions players).dedup
    · have hle : ¬ 0 < countLbl (allPositions players) lbl - countLbl slots lbl :=
        fun hc => hm ⟨hmem, hc⟩
      omega
    · have hnot : lbl ∉ allPositions players := fun hc => hmem (List.mem_dedup.mpr hc)
      have hz : countLbl (allPositions players) lbl = 0 := by
        unfold countLbl
        rw [List.countP_eq_zero]
        intro a ha
        simp only [decide_eq_true_eq]
        intro he
        exact hnot (he ▸ ha)
      omega

/-- Witness for C9: three centers (one also LW-eligible), slots
`["C","C","LW"]`, queried at label `"C"`: surplus 1. -/
theorem calculate_idle_players_surplus_witness :
    (∀ p ∈ ([⟨"A", "BOS", ["C", "LW"]⟩, ⟨"B", "BOS", ["C"]⟩, ⟨"Cc", "NJ", ["C"]⟩] :
        List Player), p.pos.Nodup) ∧
      (alistLookup (calculate_idle_players
          [⟨"A", "BOS", ["C", "LW"]⟩, ⟨"B", "BOS", ["C"]⟩, ⟨"Cc", "NJ", ["C"]⟩]
          ["C", "C", "LW"]) "C").getD 0 =
        ([⟨"A", "BOS", ["C", "LW"]⟩, ⟨"B", "BOS", ["C"]⟩, ⟨"Cc", "NJ", ["C"]⟩] :
          List Player).countP (fun p => decide ("C" ∈ p.pos)) -
          countLbl ["C", "C", "LW"] "C" :=
  ⟨by decide, calculate_idle_players_surplus _ _ (by decide) "C"⟩
